import Mathlib

/-! # founder-signal-worker: verification of the extraction pipeline

Shallow embedding of the canonical snapshot of src/index.ts (the latest of
the three snapshots in the repository). JavaScript strings are modelled as
lists of characters; the asynchronous fetch environment is modelled as
explicit functions from ids to outcomes, since Promise.all returns results
in index order regardless of completion order.
-/

namespace FounderSignal

/-- Model of the JavaScript regular-expression class backslash-s together
with the set trimmed by String.prototype.trim (space, tab, line and
paragraph separators, no-break space, BOM and the Unicode space block). -/
def isJsWs (c : Char) : Bool :=
  c = ' ' || c = '\t' || c = '\n' || c = '\r' ||
  c.toNat = 11 || c.toNat = 12 ||
  c.toNat = 0xa0 || c.toNat = 0x1680 ||
  (0x2000 ≤ c.toNat && c.toNat ≤ 0x200a) ||
  c.toNat = 0x2028 || c.toNat = 0x2029 || c.toNat = 0x202f ||
  c.toNat = 0x205f || c.toNat = 0x3000 || c.toNat = 0xfeff

/-- ASCII model of String.prototype.toLowerCase, applied character-wise.
All marker phrases and keyword patterns in the source are ASCII. -/
def jsLowerChar (c : Char) : Char :=
  if 65 ≤ c.toNat && c.toNat ≤ 90 then Char.ofNat (c.toNat + 32) else c

/-- Case-fold a string (list of characters). -/
def lowerStr (l : List Char) : List Char := l.map jsLowerChar

/-- The five-label signal taxonomy from src/index.ts. -/
inductive SignalType where
  | pain
  | workaround
  | request
  | launch
  | unknown
deriving DecidableEq

/-- The HN-specific launch marker checked by startsWith in classifySignal. -/
def showMarker : List Char := "show hn".data

/-- The HN-specific ask marker checked by startsWith in classifySignal. -/
def askMarker : List Char := "ask hn".data

/-- Pain-language keywords of the first regular expression in
classifySignal; the regex test is substring containment of any branch. -/
def painWords : List (List Char) :=
  [ "pain".data, "stuck".data, "frustrat".data, "hate".data, "broken".data,
    "can\x27t".data, "cannot".data, "problem".data, "issue".data ]

/-- Workaround-language keywords of the second regular expression. -/
def workaroundWords : List (List Char) :=
  [ "workaround".data, "hack".data, "duct tape".data, "script".data,
    "automate".data, "i built".data, "we built".data, "solution".data ]

/-- Request-language keywords of the third regular expression. -/
def requestWords : List (List Char) :=
  [ "looking for".data, "anyone know".data, "recommend".data,
    "need a tool".data, "wish there was".data, "does anyone".data ]

/-- Substring containment test, the model of String.prototype.includes
and of a regex test for a literal pattern. -/
def containsSeg (pat : List Char) : List Char → Bool
  | [] => pat.isEmpty
  | c :: cs => pat.isPrefixOf (c :: cs) || containsSeg pat cs

/-- A disjunctive keyword regex test: some branch occurs as a substring. -/
def wordTest (words : List (List Char)) (t : List Char) : Bool :=
  words.any (fun w => containsSeg w t)

/-- Embedding of classifySignal: case-fold, then fixed precedence order,
first match wins (HN prefixes, then pain, workaround, request keywords). -/
def classifySignal (text : List Char) : SignalType :=
  let t := lowerStr text
  if showMarker.isPrefixOf t then .launch
  else if askMarker.isPrefixOf t then .request
  else if wordTest painWords t then .pain
  else if wordTest workaroundWords t then .workaround
  else if wordTest requestWords t then .request
  else .unknown

/-- Drop characters through the first greater-than sign, returning the
suffix after it, or none when no greater-than sign occurs. This is the
extent of one match of the tag regex starting at a less-than sign. -/
def dropTag : List Char → Option (List Char)
  | [] => none
  | c :: cs => if c = '>' then some cs else dropTag cs

/-- Fuelled scan of the global replacement of the tag regex by a space:
each less-than sign that is eventually closed by a greater-than sign is
removed together with everything up to that greater-than sign and
replaced by one space; a less-than sign never closed leaves the rest of
the input unchanged, since no further match is possible without a
greater-than sign. Every step consumes at least one character, so fuel
equal to the input length suffices and the exhausted-fuel case is never
reached from the wrapper below. -/
def stripTagsF : Nat → List Char → List Char
  | _, [] => []
  | 0, l => l
  | fuel + 1, c :: cs =>
    if c = '<' then
      match dropTag cs with
      | some rest => ' ' :: stripTagsF fuel rest
      | none => c :: cs
    else c :: stripTagsF fuel cs

/-- The tag-strip pass of stripHtmlTags. -/
def stripTags (l : List Char) : List Char := stripTagsF l.length l

/-- Fuelled scan of a global literal-string replacement (String.replace
with a global literal regex): scan left to right, replace each
non-overlapping occurrence, never rescanning the replacement text. The
patterns used in the source are all nonempty, which the guard records.
Every step consumes at least one character, so fuel equal to the input
length suffices. -/
def replaceSubF (pat rep : List Char) : Nat → List Char → List Char
  | _, [] => []
  | 0, l => l
  | fuel + 1, c :: cs =>
    if pat.isPrefixOf (c :: cs) ∧ pat ≠ [] then
      rep ++ replaceSubF pat rep fuel (cs.drop (pat.length - 1))
    else c :: replaceSubF pat rep fuel cs

/-- One global literal replacement pass. -/
def replaceSub (pat rep l : List Char) : List Char := replaceSubF pat rep l.length l

/-- Embedding of the global whitespace-run replacement by a single space:
inside a run of whitespace all but the last character vanish, and the last
becomes one space. -/
def collapseWs : List Char → List Char
  | [] => []
  | [c] => if isJsWs c then [' '] else [c]
  | c1 :: c2 :: cs =>
    if isJsWs c1 && isJsWs c2 then collapseWs (c2 :: cs)
    else (if isJsWs c1 then ' ' else c1) :: collapseWs (c2 :: cs)

/-- Embedding of String.prototype.trim. -/
def trimWs (l : List Char) : List Char :=
  ((l.dropWhile isJsWs).reverse.dropWhile isJsWs).reverse

def ampPat : List Char := "&amp;".data
def ampRep : List Char := "&".data
def ltPat : List Char := "&lt;".data
def ltRep : List Char := "<".data
def gtPat : List Char := "&gt;".data
def gtRep : List Char := ">".data
def quotPat : List Char := "&quot;".data
def quotRep : List Char := "\"".data
def aposPat : List Char := "&#x27;".data
def aposRep : List Char := "\x27".data
def nbspPat : List Char := "&nbsp;".data
def nbspRep : List Char := " ".data

/-- Embedding of stripHtmlTags: strip tag-like substrings, decode the six
named entities in source order, collapse whitespace runs, trim. -/
def stripHtmlTags (html : List Char) : List Char :=
  trimWs (collapseWs
    (replaceSub nbspPat nbspRep
      (replaceSub aposPat aposRep
        (replaceSub quotPat quotRep
          (replaceSub gtPat gtRep
            (replaceSub ltPat ltRep
              (replaceSub ampPat ampRep
                (stripTags html))))))))

/-- Coerced numeric view of the limit field: the source computes Number of
the supplied value and branches on Number.isFinite. A missing field
coerces to NaN, folded into the nonFinite case; finite doubles embed into
the rationals. -/
inductive JsNumber where
  | nonFinite
  | finite (q : ℚ)

/-- Embedding of normalizeLimit: non-finite or nonpositive gives the
default 25, otherwise the floor capped at 100. -/
def normalizeLimit : JsNumber → Int
  | .nonFinite => 25
  | .finite q => if q ≤ 0 then 25 else min (Int.floor q) 100

/-- Raw upstream item record; all fields but the identifier are optional,
and an optional string that is the empty string is falsy like a missing
one. -/
structure HNItem where
  id : Int
  title : Option (List Char) := none
  url : Option (List Char) := none
  score : Option Int := none
  time : Option Int := none
  descendants : Option Int := none
  kids : Option (List Int) := none
deriving DecidableEq

/-- Raw upstream comment record. -/
structure HNComment where
  id : Int
  text : Option (List Char) := none
  deleted : Bool := false
  dead : Bool := false
deriving DecidableEq

/-- Output unit of the provider. -/
structure SignalItem where
  title : List Char
  url : List Char
  subreddit : List Char
  score : Int
  created_utc : Int
  signal_type : SignalType
  excerpt : List Char
deriving DecidableEq

/-- Provider result: ordered items plus an optional error string. -/
structure ProviderResult where
  items : List SignalItem
  error : Option (List Char) := none

/-- Result of one per-comment fetch inside fetchTopComments: any network
failure, non-success status, unparseable or null body is none; a usable
record is sanitized, a record that is deleted, dead or without a text
body is dropped as null. -/
def commentText : Option HNComment → Option (List Char)
  | none => none
  | some c =>
    if c.deleted || c.dead then none
    else
      match c.text with
      | none => none
      | some t => if t = [] then none else some (stripHtmlTags t)

def commentSep : List Char := " | ".data

def ellipsis : List Char := "...".data

/-- The filtered list of usable sanitized comment texts, in requested
order: the first maxComments child ids are fetched and results that are
null or empty strings are dropped. -/
def validComments (fetch : Int → Option HNComment) (kids : Option (List Int))
    (maxComments : Nat) : List (List Char) :=
  match kids with
  | none => []
  | some ks =>
    ((ks.take maxComments).map (fun i => commentText (fetch i))).filterMap
      (fun oc =>
        match oc with
        | none => none
        | some s => if s = [] then none else some s)

/-- The joined excerpt string before length limiting. -/
def joinedComments (fetch : Int → Option HNComment) (kids : Option (List Int))
    (maxComments : Nat) : List Char :=
  List.intercalate commentSep (validComments fetch kids maxComments)

/-- Embedding of fetchTopComments: empty or missing kid list yields the
empty string; otherwise join the usable sanitized comments with the fixed
separator and limit to 200 characters with a three-character ellipsis. -/
def fetchTopComments (fetch : Int → Option HNComment) (kids : Option (List Int))
    (maxComments : Nat := 3) : List Char :=
  match kids with
  | none => []
  | some ks =>
    if ks = [] then []
    else if validComments fetch (some ks) maxComments = [] then []
    else
      let joined := joinedComments fetch (some ks) maxComments
      if 200 < joined.length then joined.take 197 ++ ellipsis else joined

/-- Outcome of the candidate-list fetch: a thrown network error (caught by
the surrounding try), a non-success status (the explicit ok check), a
body that fails to parse as a list (thrown by json, caught by the
surrounding try), or the parsed id list. -/
inductive TopFetch where
  | netThrow (msg : List Char)
  | httpErr (status : Nat)
  | parseThrow (msg : List Char)
  | ok (ids : List Int)

/-- The fetch environment of one extraction call: the candidate-list
outcome and the per-id outcomes of item and comment fetches. Promise.all
preserves index order, so the concurrent fan-out is the order-preserving
map over these functions. -/
structure HNEnv where
  top : TopFetch
  item : Int → Option HNItem
  comment : Int → Option HNComment

def hnApiErrorMsg (msg : List Char) : List Char := "HN API error: ".data ++ msg

def topStoriesErrorMsg (status : Nat) : List Char :=
  "Failed to fetch top stories: ".data ++ (toString status).data

/-- Upstream fan-out ceiling: at most the first 100 candidate ids are
fetched, independent of the requested limit. -/
def hnFetchLimit (ids : List Int) : Nat := min ids.length 100

/-- The keyword filter of the provider: keep a fetched record when it is
non-null, has a truthy (non-empty) title, and the case-folded title
contains some case-folded keyword as a substring. -/
def keepItem (keywordsLower : List (List Char)) : Option HNItem → Option HNItem
  | none => none
  | some item =>
    match item.title with
    | none => none
    | some t =>
      if t = [] then none
      else if keywordsLower.any (fun kw => containsSeg kw (lowerStr t)) then some item
      else none

/-- The filtered item list: fetch the first hnFetchLimit candidates and
keep the keyword-matching ones in candidate order. -/
def filteredItems (itemFetch : Int → Option HNItem) (keywords : List (List Char))
    (ids : List Int) : List HNItem :=
  ((ids.take (hnFetchLimit ids)).map itemFetch).filterMap
    (keepItem (keywords.map lowerStr))

/-- The filtered-then-truncated item list (slice to the requested limit). -/
def retainedItems (itemFetch : Int → Option HNItem) (keywords : List (List Char))
    (limit : Int) (ids : List Int) : List HNItem :=
  (filteredItems itemFetch keywords ids).take limit.toNat

def hnCanonicalUrl (id : Int) : List Char :=
  "https://news.ycombinator.com/item?id=".data ++ (toString id).data

def providerLabel : List Char := "hackernews".data

/-- Assemble one retained item into a SignalItem: default excerpt is the
reply count, replaced by the aggregated comment excerpt when the item has
a positive reply count, a non-empty kid list and the aggregate is
non-empty; the url falls back to the canonical item link when absent or
empty. -/
def buildSignalItem (commentFetch : Int → Option HNComment) (item : HNItem) :
    SignalItem :=
  let defaultExcerpt := (toString (item.descendants.getD 0)).data ++ " comments".data
  let excerpt :=
    match item.descendants, item.kids with
    | some d, some ks =>
      if 0 < d ∧ ks ≠ [] then
        let ce := fetchTopComments commentFetch (some ks) 3
        if ce ≠ [] then ce else defaultExcerpt
      else defaultExcerpt
    | _, _ => defaultExcerpt
  { title := item.title.getD []
    url :=
      match item.url with
      | some u => if u = [] then hnCanonicalUrl item.id else u
      | none => hnCanonicalUrl item.id
    subreddit := providerLabel
    score := item.score.getD 0
    created_utc := item.time.getD 0
    signal_type := classifySignal (item.title.getD [])
    excerpt := excerpt }

/-- Embedding of hackerNewsProvider: a candidate-list failure is the only
path with an error string (network throw and body-parse throw reach the
surrounding catch, a non-success status returns directly); on the parsed
id list the pipeline filters, truncates and assembles with no error. -/
def hackerNewsProvider (env : HNEnv) (keywords : List (List Char))
    (limit : Int) : ProviderResult :=
  match env.top with
  | .netThrow msg => { items := [], error := some (hnApiErrorMsg msg) }
  | .httpErr status => { items := [], error := some (topStoriesErrorMsg status) }
  | .parseThrow msg => { items := [], error := some (hnApiErrorMsg msg) }
  | .ok ids =>
    { items := (retainedItems env.item keywords limit ids).map
        (buildSignalItem env.comment)
      error := none }

/-- Parsed body of a POST to the extract route. -/
structure ExtractRequest where
  subreddits : List (List Char)
  keywords : List (List Char)
  limit : JsNumber

/-- Shape of the extract route response that the claims speak about: the
HTTP status, the items array, and the optional error field of meta. -/
structure ExtractResponse where
  status : Nat
  items : List SignalItem
  metaError : Option (List Char)

/-- Embedding of the POST /extract handler after JSON parsing: trim and
drop empty entries of both arrays, reject empty arrays with 400,
otherwise normalize the limit, run the provider, and answer 200 with the
provider error, if any, copied into meta. -/
def extractRoute (env : HNEnv) (body : ExtractRequest) : ExtractResponse :=
  let subreddits := (body.subreddits.map trimWs).filter (fun s => s ≠ [])
  let keywords := (body.keywords.map trimWs).filter (fun s => s ≠ [])
  if subreddits = [] then { status := 400, items := [], metaError := none }
  else if keywords = [] then { status := 400, items := [], metaError := none }
  else
    let limit := normalizeLimit body.limit
    let result := hackerNewsProvider env keywords limit
    { status := 200, items := result.items, metaError := result.error }

/-- Modelled from the spec: wellformedness of tag-like markers in an
input, the precondition under which the tag-strip pass removes every
angle bracket. Each less-than sign must be closed by a later greater-than
sign (the extent of one tag match), and a greater-than sign may occur
only as such a closer. The scan mirrors stripTagsF, fuel included. -/
def tagWfF : Nat → List Char → Bool
  | _, [] => true
  | 0, _ => false
  | fuel + 1, c :: cs =>
    if c = '<' then
      match dropTag cs with
      | some rest => tagWfF fuel rest
      | none => false
    else if c = '>' then false
    else tagWfF fuel cs

/-- Wellformed tag markers, with fuel instantiated like stripTags. -/
def tagWf (l : List Char) : Bool := tagWfF l.length l

/-- Canonical whitespace shape: every whitespace character is a plain
space and no two whitespace characters are adjacent. The output of
collapseWs has this shape, and collapseWs is the identity on it. -/
def wsCanon : List Char → Bool
  | [] => true
  | [c] => !isJsWs c || c = ' '
  | c1 :: c2 :: cs =>
    (!isJsWs c1 || c1 = ' ') && !(isJsWs c1 && isJsWs c2) && wsCanon (c2 :: cs)

/-- Concrete environment with a failing candidate-list fetch, for the C2
witness. -/
def envFailW : HNEnv :=
  { top := .httpErr 500, item := fun _ => none, comment := fun _ => none }

/-- Concrete valid request body for the C2 witness. -/
def bodyW : ExtractRequest :=
  { subreddits := ["hackernews".data], keywords := ["ai".data],
    limit := .nonFinite }

/-- Concrete environment with a body-parse failure of the candidate list,
for the C9 witness. -/
def envParseW : HNEnv :=
  { top := .parseThrow "Unexpected token".data, item := fun _ => none,
    comment := fun _ => none }

/-- Concrete per-id item table of the scenario of section 8 of the spec:
three candidates, two of which match the keywords. -/
def itemTableW : Int → Option HNItem
  | 1 => some { id := 1, title := some "New AI startup launches".data }
  | 2 => some { id := 2, title := some "Gardening tips".data }
  | 3 => some { id := 3, title := some "Show HN: my startup tool".data }
  | _ => none

/-- Concrete scenario environment for the C3 and C4 witnesses. -/
def envScenarioW : HNEnv :=
  { top := .ok [1, 2, 3], item := itemTableW, comment := fun _ => none }

/-- Concrete scenario keywords for the C3 and C4 witnesses. -/
def kwsScenarioW : List (List Char) := ["AI".data, "startup".data]

/-- Concrete comment table whose single comment sanitizes to a string of
201 characters, for the C5 witness. -/
def commentTableLongW : Int → Option HNComment :=
  fun _ => some { id := 1, text := some (List.replicate 201 'a') }

/-- Concrete comment table where comment 5 is usable but markup-only, for
the C10 witness. -/
def commentTableMarkupW : Int → Option HNComment
  | 5 => some { id := 5, text := some "<i></i>".data }
  | j => some { id := j, text := some "hello".data }

theorem dropTag_length_lt {l r : List Char} (h : dropTag l = some r) :
    r.length < l.length := by
  induction l with
  | nil => simp [dropTag] at h
  | cons c cs ih =>
    by_cases hc : c = '>'
    · simp [dropTag, hc] at h
      simp [← h]
    · simp [dropTag, hc] at h
      exact Nat.lt_succ_of_lt (ih h)

/-- Claim C1: classify is total over the five fixed labels, and the
source-specific show marker outranks every keyword rule: whenever the
case-folded input starts with the show marker, the result is launch, even
when pain-, workaround- or request-language keywords occur in the
input. -/
theorem classifySignal_labels_and_show_marker_priority :
    (∀ text : List Char,
      classifySignal text = .launch ∨ classifySignal text = .request ∨
      classifySignal text = .pain ∨ classifySignal text = .workaround ∨
      classifySignal text = .unknown) ∧
    (∀ text : List Char, showMarker.isPrefixOf (lowerStr text) = true →
      classifySignal text = .launch) := by
  constructor
  · intro text
    cases h : classifySignal text <;> simp [h]
  · intro text h
    simp [classifySignal, h]

/-- Witness for C1 at a title that starts with the show marker and also
contains pain-, workaround- and request-language keywords. -/
theorem classifySignal_show_marker_witness :
    (showMarker.isPrefixOf
      (lowerStr ("Show HN: I hate my broken workaround, looking for a tool".data))
        = true) ∧
    (wordTest painWords
      (lowerStr ("Show HN: I hate my broken workaround, looking for a tool".data))
        = true) ∧
    classifySignal ("Show HN: I hate my broken workaround, looking for a tool".data)
      = .launch :=
  ⟨by decide, by decide,
    classifySignal_labels_and_show_marker_priority.2 _ (by decide)⟩

/-- Claim C7: normalizeLimit maps a missing or non-finite or nonpositive
limit to the default 25, and any positive finite limit to its floor
capped at 100. -/
theorem normalizeLimit_contract :
    normalizeLimit .nonFinite = 25 ∧
    (∀ q : ℚ, q ≤ 0 → normalizeLimit (.finite q) = 25) ∧
    (∀ q : ℚ, 0 < q → normalizeLimit (.finite q) = min (Int.floor q) 100) := by
  refine ⟨rfl, ?_, ?_⟩
  · intro q hq
    simp only [normalizeLimit]
    rw [if_pos hq]
  · intro q hq
    simp only [normalizeLimit]
    rw [if_neg (not_le.mpr hq)]

/-- Witness for C7 at a negative limit and at a large positive limit. -/
theorem normalizeLimit_contract_witness :
    ((-3 : ℚ) ≤ 0 ∧ normalizeLimit (.finite (-3)) = 25) ∧
    ((0 : ℚ) < 250 ∧
      normalizeLimit (.finite 250) = min (Int.floor (250 : ℚ)) 100) :=
  ⟨⟨by norm_num, normalizeLimit_contract.2.1 (-3) (by norm_num)⟩,
    ⟨by norm_num, normalizeLimit_contract.2.2 250 (by norm_num)⟩⟩

theorem hnApiErrorMsg_ne_nil (msg : List Char) : hnApiErrorMsg msg ≠ [] := by
  intro h
  rcases List.append_eq_nil.mp h with ⟨h1, _⟩
  exact absurd h1 (by decide)

theorem topStoriesErrorMsg_ne_nil (status : Nat) :
    topStoriesErrorMsg status ≠ [] := by
  intro h
  rcases List.append_eq_nil.mp h with ⟨h1, _⟩
  exact absurd h1 (by decide)

/-- Claim C2: on a candidate-list fetch failure (network error or
non-success status) the provider result has an empty item list and a
non-empty error string, the /extract route still answers 200 with the
error copied into meta, and this is the only total-failure path: an error
string occurs only when the candidate-list fetch did not deliver an id
list. -/
theorem extract_candidate_failure_contract :
    (∀ (env : HNEnv) (body : ExtractRequest),
      (body.subreddits.map trimWs).filter (fun s => s ≠ []) ≠ [] →
      (body.keywords.map trimWs).filter (fun s => s ≠ []) ≠ [] →
      ((∃ msg, env.top = .netThrow msg) ∨ (∃ s, env.top = .httpErr s)) →
      (extractRoute env body).status = 200 ∧
      (extractRoute env body).items = [] ∧
      ∃ e, (extractRoute env body).metaError = some e ∧ e ≠ []) ∧
    (∀ (env : HNEnv) (kws : List (List Char)) (lim : Int) (e : List Char),
      (hackerNewsProvider env kws lim).error = some e →
      (hackerNewsProvider env kws lim).items = [] ∧
      ∀ ids, env.top ≠ .ok ids) := by
  constructor
  · intro env body hs hk hfail
    have hroute : extractRoute env body =
        { status := 200,
          items := (hackerNewsProvider env
            ((body.keywords.map trimWs).filter (fun s => s ≠ []))
            (normalizeLimit body.limit)).items,
          metaError := (hackerNewsProvider env
            ((body.keywords.map trimWs).filter (fun s => s ≠ []))
            (normalizeLimit body.limit)).error } := by
      unfold extractRoute
      rw [if_neg hs, if_neg hk]
    rcases hfail with ⟨msg, htop⟩ | ⟨s, htop⟩
    · rw [hroute]
      simp [hackerNewsProvider, htop]
      exact hnApiErrorMsg_ne_nil msg
    · rw [hroute]
      simp [hackerNewsProvider, htop]
      exact topStoriesErrorMsg_ne_nil s
  · intro env kws lim e h
    cases htop : env.top with
    | netThrow msg => simp [hackerNewsProvider, htop]
    | httpErr s => simp [hackerNewsProvider, htop]
    | parseThrow msg => simp [hackerNewsProvider, htop]
    | ok ids => rw [hackerNewsProvider, htop] at h; simp at h

/-- Witness for C2 at a concrete valid body and a 500 candidate-list
status. -/
theorem extract_candidate_failure_witness :
    (extractRoute envFailW bodyW).status = 200 ∧
    (extractRoute envFailW bodyW).items = [] ∧
    ∃ e, (extractRoute envFailW bodyW).metaError = some e ∧ e ≠ [] :=
  extract_candidate_failure_contract.1 envFailW bodyW (by decide) (by decide)
    (Or.inr ⟨500, rfl⟩)

/-- Claim C9: on every failure path, including an unparseable
candidate-list body caught by the surrounding try, a provider result that
carries an error string has an empty item list, so a result with items
never carries an error. -/
theorem provider_error_empty_invariant :
    (∀ (env : HNEnv) (kws : List (List Char)) (lim : Int) (e : List Char),
      (hackerNewsProvider env kws lim).error = some e →
      (hackerNewsProvider env kws lim).items = []) ∧
    (∀ (env : HNEnv) (kws : List (List Char)) (lim : Int) (msg : List Char),
      env.top = .parseThrow msg →
      (hackerNewsProvider env kws lim).items = [] ∧
      ∃ e, (hackerNewsProvider env kws lim).error = some e ∧ e ≠ []) := by
  constructor
  · intro env kws lim e h
    cases htop : env.top with
    | netThrow msg => simp [hackerNewsProvider, htop]
    | httpErr s => simp [hackerNewsProvider, htop]
    | parseThrow msg => simp [hackerNewsProvider, htop]
    | ok ids => rw [hackerNewsProvider, htop] at h; simp at h
  · intro env kws lim msg htop
    refine ⟨by simp [hackerNewsProvider, htop], hnApiErrorMsg msg, ?_, ?_⟩
    · simp [hackerNewsProvider, htop]
    · exact hnApiErrorMsg_ne_nil msg

/-- Witness for C9 at a concrete environment whose candidate-list body is
unparseable. -/
theorem provider_error_empty_witness :
    (hackerNewsProvider envParseW ["ai".data] 25).items = [] ∧
    ∃ e, (hackerNewsProvider envParseW ["ai".data] 25).error = some e ∧
      e ≠ [] :=
  provider_error_empty_invariant.2 envParseW ["ai".data] 25
    ("Unexpected token".data) rfl

theorem keepItem_eq_some {kl : List (List Char)} {o : Option HNItem}
    {x : HNItem} (h : keepItem kl o = some x) : o = some x := by
  cases o with
  | none => simp [keepItem] at h
  | some item =>
    have : item = x := by
      rw [keepItem] at h
      rcases ht : item.title with _ | t <;> rw [ht] at h
      · simp at h
      · dsimp only at h
        split_ifs at h
        exact Option.some.inj h
    rw [this]

theorem filterMap_keep_sublist (kl : List (List Char))
    (l : List (Option HNItem)) :
    (l.filterMap (keepItem kl)).Sublist (l.filterMap id) := by
  induction l with
  | nil => simp
  | cons o rest ih =>
    rcases hk : keepItem kl o with _ | x
    · rw [List.filterMap_cons, hk]
      cases o with
      | none => simpa using ih
      | some item =>
        rw [List.filterMap_cons]
        exact ih.trans (List.sublist_cons_self item _)
    · have ho : o = some x := keepItem_eq_some hk
      subst ho
      rw [List.filterMap_cons, hk, List.filterMap_cons]
      exact ih.cons₂ x

/-- Claim C3: on a delivered candidate list the provider output is the
order-preserving image of a sublist of the successfully fetched items in
upstream candidate order — the filtered-then-truncated list is assembled
by an index-order map and never re-sorted. -/
theorem extract_order_preserved :
    ∀ (env : HNEnv) (kws : List (List Char)) (lim : Int) (ids : List Int),
      env.top = .ok ids →
      ∃ kept : List HNItem,
        kept.Sublist (((ids.take (hnFetchLimit ids)).map env.item).filterMap id) ∧
        (hackerNewsProvider env kws lim).items =
          kept.map (buildSignalItem env.comment) := by
  intro env kws lim ids h
  refine ⟨retainedItems env.item kws lim ids, ?_, by simp [hackerNewsProvider, h]⟩
  unfold retainedItems filteredItems
  exact (List.take_sublist _ _).trans (filterMap_keep_sublist _ _)

/-- Witness for C3 at the concrete scenario of section 8 of the spec. -/
theorem extract_order_preserved_witness :
    ∃ kept : List HNItem,
      kept.Sublist ((([1, 2, 3].take (hnFetchLimit [1, 2, 3])).map
        envScenarioW.item).filterMap id) ∧
      (hackerNewsProvider envScenarioW kwsScenarioW 5).items =
        kept.map (buildSignalItem envScenarioW.comment) :=
  extract_order_preserved envScenarioW kwsScenarioW 5 [1, 2, 3] rfl

/-- Claim C4: with normalized limit L the provider returns at most L
items, and at most as many items as pass the keyword filter among the
fetched candidates. -/
theorem extract_limit_bounds :
    ∀ (env : HNEnv) (kws : List (List Char)) (v : JsNumber) (ids : List Int),
      env.top = .ok ids →
      (hackerNewsProvider env kws (normalizeLimit v)).items.length ≤
        (normalizeLimit v).toNat ∧
      (hackerNewsProvider env kws (normalizeLimit v)).items.length ≤
        (filteredItems env.item kws ids).length := by
  intro env kws v ids h
  have hitems : (hackerNewsProvider env kws (normalizeLimit v)).items =
      (retainedItems env.item kws (normalizeLimit v) ids).map
        (buildSignalItem env.comment) := by
    simp [hackerNewsProvider, h]
  rw [hitems, List.length_map]
  unfold retainedItems
  rw [List.length_take]
  exact ⟨min_le_left _ _, min_le_right _ _⟩

/-- Witness for C4 at the concrete scenario environment with limit 5. -/
theorem extract_limit_bounds_witness :
    (hackerNewsProvider envScenarioW kwsScenarioW
      (normalizeLimit (.finite 5))).items.length ≤
        (normalizeLimit (.finite 5)).toNat ∧
    (hackerNewsProvider envScenarioW kwsScenarioW
      (normalizeLimit (.finite 5))).items.length ≤
        (filteredItems envScenarioW.item kwsScenarioW [1, 2, 3]).length :=
  extract_limit_bounds envScenarioW kwsScenarioW (.finite 5) [1, 2, 3] rfl

/-- Claim C5: the aggregated excerpt never exceeds 200 characters, and
whenever the joined string of usable sanitized comments exceeds 200
characters the output is exactly 200 characters and ends with the
three-character ellipsis. -/
theorem fetchTopComments_truncation :
    ∀ (fetch : Int → Option HNComment) (kids : Option (List Int)) (maxC : Nat),
      (fetchTopComments fetch kids maxC).length ≤ 200 ∧
      (200 < (joinedComments fetch kids maxC).length →
        (fetchTopComments fetch kids maxC).length = 200 ∧
        ellipsis <:+ fetchTopComments fetch kids maxC) := by
  intro fetch kids maxC
  cases kids with
  | none =>
    refine ⟨by simp [fetchTopComments], fun hj => absurd hj ?_⟩
    have hempty : joinedComments fetch none maxC = [] := rfl
    simp [hempty]
  | some ks =>
    by_cases hks : ks = []
    · subst hks
      refine ⟨by simp [fetchTopComments], fun hj => absurd hj ?_⟩
      have hvc0 : validComments fetch (some []) maxC = [] := by
        simp [validComments]
      have hempty : joinedComments fetch (some []) maxC = [] := by
        rw [joinedComments, hvc0]
        rfl
      simp [hempty]
    · by_cases hv : validComments fetch (some ks) maxC = []
      · have hout : fetchTopComments fetch (some ks) maxC = [] := by
          simp [fetchTopComments, hks, hv]
        refine ⟨by simp [hout], fun hj => absurd hj ?_⟩
        have hempty : joinedComments fetch (some ks) maxC = [] := by
          rw [joinedComments, hv]
          rfl
        simp [hempty]
      · by_cases hlen : 200 < (joinedComments fetch (some ks) maxC).length
        · have hout : fetchTopComments fetch (some ks) maxC =
              (joinedComments fetch (some ks) maxC).take 197 ++ ellipsis := by
            simp only [fetchTopComments]
            rw [if_neg hks, if_neg hv, if_pos hlen]
          have h197 : ((joinedComments fetch (some ks) maxC).take 197).length
              = 197 := by
            rw [List.length_take]
            omega
          have h200 : (fetchTopComments fetch (some ks) maxC).length = 200 := by
            rw [hout, List.length_append, h197]
            rfl
          exact ⟨le_of_eq h200, fun _ =>
            ⟨h200, ⟨(joinedComments fetch (some ks) maxC).take 197, hout.symm⟩⟩⟩
        · have hout : fetchTopComments fetch (some ks) maxC =
              joinedComments fetch (some ks) maxC := by
            simp only [fetchTopComments]
            rw [if_neg hks, if_neg hv, if_neg hlen]
          refine ⟨?_, fun hj => absurd hj hlen⟩
          rw [hout]
          omega

/-- Witness for C5 at a single usable comment that sanitizes to 201
identical characters. -/
theorem fetchTopComments_truncation_witness :
    200 < (joinedComments commentTableLongW (some [1]) 3).length ∧
    (fetchTopComments commentTableLongW (some [1]) 3).length = 200 ∧
    ellipsis <:+ fetchTopComments commentTableLongW (some [1]) 3 := by
  have hj : 200 < (joinedComments commentTableLongW (some [1]) 3).length := by
    set_option maxRecDepth 40000 in decide
  exact ⟨hj, (fetchTopComments_truncation commentTableLongW (some [1]) 3).2 hj⟩

/-- Claim C10: a usable comment record whose text sanitizes to the empty
string contributes nothing to the aggregate: replacing its fetch outcome
by a failed fetch leaves the aggregated excerpt unchanged, so neither
text nor a separator is added for it. -/
theorem fetchTopComments_empty_comment_dropped :
    ∀ (fetch : Int → Option HNComment) (kids : Option (List Int)) (maxC : Nat)
      (i : Int) (c : HNComment) (t : List Char),
      fetch i = some c → c.deleted = false → c.dead = false →
      c.text = some t → t ≠ [] → stripHtmlTags t = [] →
      fetchTopComments fetch kids maxC =
        fetchTopComments (fun j => if j = i then none else fetch j) kids maxC := by
  intro fetch kids maxC i c t hf hdel hdead htext htne hstrip
  have hpoint : ∀ a : Int,
      (fun oc : Option (List Char) =>
        match oc with
        | none => none
        | some s => if s = [] then none else some s) (commentText (fetch a)) =
      (fun oc : Option (List Char) =>
        match oc with
        | none => none
        | some s => if s = [] then none else some s)
        (commentText (if a = i then none else fetch a)) := by
    intro a
    by_cases ha : a = i
    · subst ha
      rw [hf, if_pos rfl]
      simp [commentText, hdel, hdead, htext, htne, hstrip]
    · rw [if_neg ha]
  have hvc : validComments fetch kids maxC =
      validComments (fun j => if j = i then none else fetch j) kids maxC := by
    cases kids with
    | none => rfl
    | some ks =>
      dsimp only [validComments]
      rw [List.filterMap_map, List.filterMap_map]
      exact List.filterMap_congr (fun a _ => hpoint a)
  have hjoin : joinedComments fetch kids maxC =
      joinedComments (fun j => if j = i then none else fetch j) kids maxC := by
    unfold joinedComments
    rw [hvc]
  cases kids with
  | none => rfl
  | some ks =>
    simp only [fetchTopComments]
    rw [hvc, hjoin]

/-- Witness for C10 at a markup-only comment in position one of two. -/
theorem fetchTopComments_empty_comment_witness :
    fetchTopComments commentTableMarkupW (some [5, 6]) 3 =
      fetchTopComments (fun j => if j = 5 then none else commentTableMarkupW j)
        (some [5, 6]) 3 :=
  fetchTopComments_empty_comment_dropped commentTableMarkupW (some [5, 6]) 3 5
    { id := 5, text := some "<i></i>".data } ("<i></i>".data)
    (by decide) rfl rfl rfl (by decide) (by decide)

theorem dropTag_suffix {l r : List Char} (h : dropTag l = some r) :
    r <:+ l := by
  induction l with
  | nil => simp [dropTag] at h
  | cons c cs ih =>
    by_cases hc : c = '>'
    · simp [dropTag, hc] at h
      rw [← h]
      exact (List.suffix_cons c cs)
    · simp [dropTag, hc] at h
      exact (ih h).trans (List.suffix_cons c cs)

theorem stripTagsF_mem :
    ∀ (fuel : Nat) (l : List Char) (c : Char),
      c ∈ stripTagsF fuel l → c ∈ l ∨ c = ' ' := by
  intro fuel
  induction fuel with
  | zero =>
    intro l c hc
    cases l with
    | nil => simp [stripTagsF] at hc
    | cons a as => exact Or.inl (by simpa [stripTagsF] using hc)
  | succ fuel ih =>
    intro l c hc
    cases l with
    | nil => simp [stripTagsF] at hc
    | cons a as =>
      by_cases ha : a = '<'
      · rw [stripTagsF, if_pos ha] at hc
        rcases hdt : dropTag as with _ | rest <;> rw [hdt] at hc
        · exact Or.inl hc
        · rcases List.mem_cons.mp hc with hsp | hc
          · exact Or.inr hsp
          · rcases ih rest c hc with hr | hsp
            · exact Or.inl (List.mem_cons_of_mem a ((dropTag_suffix hdt).subset hr))
            · exact Or.inr hsp
      · rw [stripTagsF, if_neg ha] at hc
        rcases List.mem_cons.mp hc with hac | hc
        · exact Or.inl (hac ▸ List.mem_cons_self a as)
        · rcases ih as c hc with hr | hsp
          · exact Or.inl (List.mem_cons_of_mem a hr)
          · exact Or.inr hsp

theorem stripTagsF_no_angles :
    ∀ (fuel : Nat) (l : List Char), l.length ≤ fuel → tagWfF fuel l = true →
      ∀ c ∈ stripTagsF fuel l, c ≠ '<' ∧ c ≠ '>' := by
  intro fuel
  induction fuel with
  | zero =>
    intro l hlen _ c hc
    have : l = [] := List.length_eq_zero.mp (Nat.le_zero.mp hlen)
    subst this
    simp [stripTagsF] at hc
  | succ fuel ih =>
    intro l hlen hwf c hc
    cases l with
    | nil => simp [stripTagsF] at hc
    | cons a as =>
      by_cases ha : a = '<'
      · rw [stripTagsF, if_pos ha] at hc
        rw [tagWfF, if_pos ha] at hwf
        rcases hdt : dropTag as with _ | rest <;> rw [hdt] at hwf hc
        · exact absurd hwf (by simp)
        · rcases List.mem_cons.mp hc with hsp | hc
          · subst hsp
            exact ⟨by decide, by decide⟩
          · have hrlen : rest.length ≤ fuel := by
              have h1 : rest.length < as.length := dropTag_length_lt hdt
              have h2 : as.length + 1 ≤ fuel + 1 := by simpa using hlen
              omega
            exact ih rest hrlen hwf c hc
      · by_cases hg : a = '>'
        · rw [tagWfF, if_neg ha, if_pos hg] at hwf
          exact absurd hwf (by simp)
        · rw [stripTagsF, if_neg ha] at hc
          rw [tagWfF, if_neg ha, if_neg hg] at hwf
          rcases List.mem_cons.mp hc with hac | hc
          · subst hac
            exact ⟨ha, hg⟩
          · have haslen : as.length ≤ fuel := by
              have : as.length + 1 ≤ fuel + 1 := by simpa using hlen
              omega
            exact ih as haslen hwf c hc

theorem stripTagsF_eq_self_of_no_lt :
    ∀ (fuel : Nat) (l : List Char), '<' ∉ l → stripTagsF fuel l = l := by
  intro fuel
  induction fuel with
  | zero =>
    intro l _
    cases l <;> simp [stripTagsF]
  | succ fuel ih =>
    intro l hl
    cases l with
    | nil => simp [stripTagsF]
    | cons a as =>
      have ha : a ≠ '<' := fun h => hl (h ▸ List.mem_cons_self a as)
      rw [stripTagsF, if_neg ha, ih as (fun h => hl (List.mem_cons_of_mem a h))]

theorem replaceSubF_eq_self {pat : List Char} {a : Char}
    (hpat : pat.head? = some a) :
    ∀ (fuel : Nat) (rep l : List Char), a ∉ l →
      replaceSubF pat rep fuel l = l := by
  intro fuel
  induction fuel with
  | zero =>
    intro rep l _
    cases l <;> simp [replaceSubF]
  | succ fuel ih =>
    intro rep l hl
    cases l with
    | nil => simp [replaceSubF]
    | cons c cs =>
      have hc : a ≠ c := fun h => hl (h ▸ List.mem_cons_self c cs)
      have hnp : ¬(pat.isPrefixOf (c :: cs) ∧ pat ≠ []) := by
        rintro ⟨hpre, -⟩
        rcases pat with _ | ⟨p0, ps⟩
        · simp at hpat
        · have : a = p0 := by simpa using hpat.symm
          subst this
          simp [List.isPrefixOf] at hpre
          exact hc hpre.1
      rw [replaceSubF, if_neg hnp,
        ih rep cs (fun h => hl (List.mem_cons_of_mem c h))]

theorem collapseWs_cons_not_ws {c : Char} (cs : List Char)
    (hc : isJsWs c = false) : collapseWs (c :: cs) = c :: collapseWs cs := by
  cases cs with
  | nil => simp [collapseWs, hc]
  | cons b bs => simp [collapseWs, hc]

theorem collapseWs_mem :
    ∀ (l : List Char) (c : Char), c ∈ collapseWs l → c ∈ l ∨ c = ' ' := by
  intro l
  induction l with
  | nil => intro c hc; simp [collapseWs] at hc
  | cons a as ih =>
    intro c hc
    cases as with
    | nil =>
      by_cases ha : isJsWs a = true <;> simp [collapseWs, ha] at hc
      · exact Or.inr hc
      · exact Or.inl (by simp [hc])
    | cons b bs =>
      by_cases hab : (isJsWs a && isJsWs b) = true
      · rw [collapseWs, if_pos hab] at hc
        rcases ih c hc with h | h
        · exact Or.inl (List.mem_cons_of_mem a h)
        · exact Or.inr h
      · rw [collapseWs, if_neg hab] at hc
        rcases List.mem_cons.mp hc with hhd | htl
        · by_cases ha : isJsWs a = true
          · rw [if_pos ha] at hhd
            exact Or.inr hhd
          · rw [if_neg ha] at hhd
            exact Or.inl (hhd ▸ List.mem_cons_self a _)
        · rcases ih c htl with h | h
          · exact Or.inl (List.mem_cons_of_mem a h)
          · exact Or.inr h

theorem wsCanon_cons {c : Char} {l : List Char} (h : wsCanon (c :: l) = true) :
    wsCanon l = true := by
  cases l with
  | nil => rfl
  | cons b bs =>
    rw [wsCanon] at h
    simp only [Bool.and_eq_true] at h
    exact h.2

theorem wsCanon_head_cond {c : Char} {l : List Char}
    (h : wsCanon (c :: l) = true) : (!isJsWs c || c = ' ') = true := by
  cases l with
  | nil => exact h
  | cons b bs =>
    rw [wsCanon] at h
    simp only [Bool.and_eq_true] at h
    exact h.1.1

theorem wsCanon_collapseWs : ∀ l : List Char, wsCanon (collapseWs l) = true := by
  intro l
  induction l with
  | nil => rfl
  | cons a as ih =>
    cases as with
    | nil =>
      by_cases ha : isJsWs a = true <;> simp [collapseWs, ha, wsCanon]
    | cons b bs =>
      by_cases hab : (isJsWs a && isJsWs b) = true
      · rw [collapseWs, if_pos hab]
        exact ih
      · rw [collapseWs, if_neg hab]
        by_cases ha : isJsWs a = true
        · have hb : isJsWs b = false := by
            cases hbv : isJsWs b
            · rfl
            · exact absurd (by simp [ha, hbv]) hab
          rw [if_pos ha, collapseWs_cons_not_ws bs hb]
          rw [collapseWs_cons_not_ws bs hb] at ih
          rw [wsCanon]
          simp only [Bool.and_eq_true]
          exact ⟨⟨by decide, by simp [hb]⟩, ih⟩
        · rw [if_neg ha]
          cases hX : collapseWs (b :: bs) with
          | nil =>
            simp [wsCanon, ha]
          | cons y ys =>
            rw [hX] at ih
            rw [wsCanon]
            simp only [Bool.and_eq_true]
            exact ⟨⟨by simp [ha], by simp [ha]⟩, ih⟩

theorem collapseWs_eq_self_of_canon :
    ∀ l : List Char, wsCanon l = true → collapseWs l = l := by
  intro l
  induction l with
  | nil => intro _; rfl
  | cons a as ih =>
    intro h
    cases as with
    | nil =>
      by_cases ha : isJsWs a = true
      · have : a = ' ' := by
          have hc := wsCanon_head_cond h
          simp [ha] at hc
          exact hc
        simp [collapseWs, ha, this]
      · simp [collapseWs, ha]
    | cons b bs =>
      rw [wsCanon] at h
      simp only [Bool.and_eq_true] at h
      obtain ⟨⟨hcond, hpair⟩, htail⟩ := h
      have hab : (isJsWs a && isJsWs b) = false := by
        cases hv : (isJsWs a && isJsWs b)
        · rfl
        · rw [hv] at hpair
          exact absurd hpair (by decide)
      rw [collapseWs, if_neg (by simp [hab])]
      rw [ih htail]
      by_cases ha : isJsWs a = true
      · have : a = ' ' := by simpa [ha] using hcond
        rw [if_pos ha, this]
      · rw [if_neg ha]

theorem wsCanon_append_right {a b : List Char}
    (h : wsCanon (a ++ b) = true) : wsCanon b = true := by
  induction a with
  | nil => exact h
  | cons c a' ih => exact ih (wsCanon_cons h)

theorem wsCanon_append_left :
    ∀ (a b : List Char), wsCanon (a ++ b) = true → wsCanon a = true := by
  intro a
  induction a with
  | nil => intro b _; rfl
  | cons c a' ih =>
    intro b h
    cases a' with
    | nil => exact wsCanon_head_cond h
    | cons c' a'' =>
      simp only [List.cons_append] at h
      rw [wsCanon] at h
      simp only [Bool.and_eq_true] at h
      obtain ⟨⟨hcond, hpair⟩, htail⟩ := h
      rw [wsCanon]
      simp only [Bool.and_eq_true]
      refine ⟨⟨hcond, hpair⟩, ?_⟩
      have := ih b (by simpa using htail)
      exact this

theorem trimWs_eq_rdrop_drop (l : List Char) :
    trimWs l = List.rdropWhile isJsWs (List.dropWhile isJsWs l) := rfl

theorem wsCanon_trimWs (l : List Char) (h : wsCanon l = true) :
    wsCanon (trimWs l) = true := by
  rw [trimWs_eq_rdrop_drop]
  have hd : wsCanon (List.dropWhile isJsWs l) = true := by
    have := List.takeWhile_append_dropWhile (p := isJsWs) (l := l)
    exact wsCanon_append_right (a := List.takeWhile isJsWs l) (this.symm ▸ h)
  obtain ⟨t, ht⟩ := List.rdropWhile_prefix isJsWs (List.dropWhile isJsWs l)
  exact wsCanon_append_left _ t (ht.symm ▸ hd)

theorem trimWs_mem (l : List Char) (c : Char) (h : c ∈ trimWs l) : c ∈ l := by
  rw [trimWs_eq_rdrop_drop] at h
  exact (List.dropWhile_suffix isJsWs).sublist.subset
    ((List.rdropWhile_prefix isJsWs _).sublist.subset h)

theorem trimWs_idem (l : List Char) : trimWs (trimWs l) = trimWs l := by
  rw [trimWs_eq_rdrop_drop, trimWs_eq_rdrop_drop]
  have hdw : List.dropWhile isJsWs
      (List.rdropWhile isJsWs (List.dropWhile isJsWs l)) =
      List.rdropWhile isJsWs (List.dropWhile isJsWs l) := by
    rw [List.dropWhile_eq_self_iff]
    intro hl
    have hpre := List.rdropWhile_prefix isJsWs (List.dropWhile isJsWs l)
    have hlen : 0 < (List.dropWhile isJsWs l).length :=
      hl.trans_le hpre.length_le
    rw [List.IsPrefix.get_eq hpre hl]
    exact List.dropWhile_get_zero_not isJsWs l hlen
  rw [hdw, List.rdropWhile_idempotent]

theorem replaceSub_eq_self {pat rep l : List Char}
    (hpat : pat.head? = some '&') (hl : '&' ∉ l) :
    replaceSub pat rep l = l :=
  replaceSubF_eq_self hpat l.length rep l hl

theorem entity_chain_eq_self {m : List Char} (hm : '&' ∉ m) :
    replaceSub nbspPat nbspRep
      (replaceSub aposPat aposRep
        (replaceSub quotPat quotRep
          (replaceSub gtPat gtRep
            (replaceSub ltPat ltRep
              (replaceSub ampPat ampRep m))))) = m := by
  rw [replaceSub_eq_self (by decide) hm, replaceSub_eq_self (by decide) hm,
    replaceSub_eq_self (by decide) hm, replaceSub_eq_self (by decide) hm,
    replaceSub_eq_self (by decide) hm, replaceSub_eq_self (by decide) hm]

theorem stripHtmlTags_eq_trim_collapse {l : List Char}
    (hamp : '&' ∉ stripTags l) :
    stripHtmlTags l = trimWs (collapseWs (stripTags l)) := by
  unfold stripHtmlTags
  rw [entity_chain_eq_self hamp]

/-- Counterexample for C6 as stated: an unbalanced tag-like marker
survives sanitization, since the tag regex only removes a less-than sign
that is closed by a later greater-than sign. -/
theorem stripHtmlTags_angle_counterexample :
    ¬ ('<' ∉ stripHtmlTags ("a < b".data) ∧
       '>' ∉ stripHtmlTags ("a < b".data)) := by
  decide

/-- Claim C6 (amended): when every less-than sign of the input opens a
tag-like marker closed by the next greater-than sign, every greater-than
sign closes one, and the input contains no ampersand (so no entity
decodes to a bracket), the output of sanitize contains no angle
bracket. -/
theorem stripHtmlTags_no_angles_of_wf :
    ∀ l : List Char, tagWf l = true → '&' ∉ l →
      '<' ∉ stripHtmlTags l ∧ '>' ∉ stripHtmlTags l := by
  intro l hwf hamp
  rw [tagWf] at hwf
  have hangles : ∀ c ∈ stripTags l, c ≠ '<' ∧ c ≠ '>' :=
    stripTagsF_no_angles l.length l le_rfl hwf
  have hampS : '&' ∉ stripTags l := by
    intro hmem
    rcases stripTagsF_mem l.length l '&' hmem with h | h
    · exact hamp h
    · exact absurd h (by decide)
  have heq := stripHtmlTags_eq_trim_collapse hampS
  constructor
  · intro hmem
    rw [heq] at hmem
    rcases collapseWs_mem _ _ (trimWs_mem _ _ hmem) with h2 | h2
    · exact (hangles '<' h2).1 rfl
    · exact absurd h2 (by decide)
  · intro hmem
    rw [heq] at hmem
    rcases collapseWs_mem _ _ (trimWs_mem _ _ hmem) with h2 | h2
    · exact (hangles '>' h2).2 rfl
    · exact absurd h2 (by decide)

/-- Witness for amended C6 at an input made of plain text and two
complete tags. -/
theorem stripHtmlTags_no_angles_witness :
    tagWf ("hello <b>world</b>".data) = true ∧
    '&' ∉ ("hello <b>world</b>".data) ∧
    '<' ∉ stripHtmlTags ("hello <b>world</b>".data) ∧
    '>' ∉ stripHtmlTags ("hello <b>world</b>".data) :=
  ⟨by decide, by decide,
    stripHtmlTags_no_angles_of_wf ("hello <b>world</b>".data)
      (by decide) (by decide)⟩

/-- Counterexample for C8 as stated: sanitize is not idempotent on all
inputs, since entity decoding can materialize a complete tag that only
the second pass strips. -/
theorem stripHtmlTags_not_idempotent :
    stripHtmlTags (stripHtmlTags ("&lt;b&gt;".data)) ≠
      stripHtmlTags ("&lt;b&gt;".data) := by
  decide

/-- Claim C8 (amended): sanitize is idempotent on already-clean text,
namely on every input without a less-than sign (nothing tag-like to
strip) and without an ampersand (nothing entity-like to decode). -/
theorem stripHtmlTags_idempotent_on_clean :
    ∀ x : List Char, '<' ∉ x → '&' ∉ x →
      stripHtmlTags (stripHtmlTags x) = stripHtmlTags x := by
  intro x hlt hamp
  have hstrip : stripTags x = x := stripTagsF_eq_self_of_no_lt x.length x hlt
  have h1 : stripHtmlTags x = trimWs (collapseWs x) := by
    rw [stripHtmlTags_eq_trim_collapse (by rw [hstrip]; exact hamp), hstrip]
  have hy_mem : ∀ c, c ∈ trimWs (collapseWs x) → c ∈ x ∨ c = ' ' := by
    intro c hc
    exact collapseWs_mem _ _ (trimWs_mem _ _ hc)
  have hylt : '<' ∉ trimWs (collapseWs x) := by
    intro hc
    rcases hy_mem _ hc with h | h
    · exact hlt h
    · exact absurd h (by decide)
  have hyamp : '&' ∉ trimWs (collapseWs x) := by
    intro hc
    rcases hy_mem _ hc with h | h
    · exact hamp h
    · exact absurd h (by decide)
  have hstrip2 : stripTags (trimWs (collapseWs x)) = trimWs (collapseWs x) :=
    stripTagsF_eq_self_of_no_lt _ _ hylt
  have h2 : stripHtmlTags (trimWs (collapseWs x)) =
      trimWs (collapseWs (trimWs (collapseWs x))) := by
    rw [stripHtmlTags_eq_trim_collapse (by rw [hstrip2]; exact hyamp), hstrip2]
  have hcanon : wsCanon (trimWs (collapseWs x)) = true :=
    wsCanon_trimWs _ (wsCanon_collapseWs x)
  rw [h1, h2, collapseWs_eq_self_of_canon _ hcanon, trimWs_idem]

/-- Witness for amended C8 at a clean input with redundant whitespace. -/
theorem stripHtmlTags_idempotent_witness :
    '<' ∉ ("hello  world ".data) ∧ '&' ∉ ("hello  world ".data) ∧
    stripHtmlTags (stripHtmlTags ("hello  world ".data)) =
      stripHtmlTags ("hello  world ".data) :=
  ⟨by decide, by decide,
    stripHtmlTags_idempotent_on_clean ("hello  world ".data)
      (by decide) (by decide)⟩

end FounderSignal
